import Mathlib

/-!
# Verification of the filefinder template / discovery / filtering core

Shallow embedding of `filefinder` (files `_filefinder.py`, `utils.py`,
`filters.py`).  Strings are modelled as `List Char`; pandas DataFrames as
explicit column/row lists; Python exceptions as `Except String`.
-/

set_option autoImplicit false

namespace Filefinder

/-- A compiled template segment: literal text or a named placeholder.
Format hints (`{name:spec}`) only narrow the matching width in the source and
never change field identity; they are stripped for the construction form
(`_FinderBase._pattern_no_fmt_spec`), so segments carry only the field name. -/
inductive Seg where
  | lit (l : List Char)
  | field (x : String)
  deriving Repr, DecidableEq

/-- A template is the ordered sequence of literal segments and placeholders. -/
abbrev Template := List Seg

/-- The field names of a template, one entry per occurrence, in order. -/
def fieldsOcc (t : Template) : List String :=
  t.filterMap fun s => match s with
    | .lit _ => none
    | .field x => some x

/-- All characters appearing in literal segments of a template. -/
def litChars (t : Template) : List Char :=
  t.foldr (fun s acc => match s with | .lit l => l ++ acc | .field _ => acc) []

/-- Substitute a value for every placeholder occurrence and concatenate
(`_FinderBase.create_name` via `str.format` on the fmt-spec-stripped pattern). -/
def render (w : String → List Char) : Template → List Char
  | [] => []
  | .lit l :: rest => l ++ render w rest
  | .field x :: rest => w x ++ render w rest

/-- Association list of captured field values. -/
abbrev Env := List (String × List Char)

/-- First-match lookup in an association list. -/
def alookup {α : Type} : List (String × α) → String → Option α
  | [], _ => none
  | (k, v) :: rest, x => if k = x then some v else alookup rest x

/-- Try `f 0`, `f 1`, …, `f (n-1)` in increasing order, returning the first
`some` result.  Used for the shortest-capture-first (non-greedy) search of the
matching grammar. -/
def tryCaps {β : Type} (f : Nat → Option β) : Nat → Option β
  | 0 => none
  | n + 1 =>
    match tryCaps f n with
    | some b => some b
    | none => f n

/-- Modelled from the spec: the matching grammar of the external `parse`
library (`parse.compile(pattern).parse(path)`), whose implementation is not
part of this repository.  Each placeholder captures one or more characters,
non-greedily (shortest capture first); literal text must match verbatim; a
repeated field name must capture the identical value at every occurrence
(§4.1 "Repeated-field semantics"); the whole string must be consumed. -/
def pmatch : Template → Env → List Char → Option Env
  | [], env, s => if s.isEmpty then some env else none
  | .lit l :: rest, env, s =>
    if l.isPrefixOf s then pmatch rest env (s.drop l.length) else none
  | .field x :: rest, env, s =>
    match alookup env x with
    | some v => if v.isPrefixOf s then pmatch rest env (s.drop v.length) else none
    | none =>
      tryCaps (fun n => pmatch rest ((x, s.take (n + 1)) :: env) (s.drop (n + 1)))
        s.length

/-- The template `"{x}_{x}"`. -/
def tplXX : Template := [.field "x", .lit ['_'], .field "x"]

example : (pmatch tplXX [] "ab_ab".data).isSome = true := by decide
example : (pmatch tplXX [] "ab_cd".data).isSome = false := by decide
example : pmatch [.field "a", .field "b"] [] "xyz".data
    = some [("b", ['y', 'z']), ("a", ['x'])] := by decide

/-- The captured value of a field, with `[]` for unbound fields. -/
def envVal (env : Env) (x : String) : List Char :=
  (alookup env x).getD []

@[simp] theorem fieldsOcc_nil : fieldsOcc [] = [] := rfl

@[simp] theorem fieldsOcc_lit (l : List Char) (rest : Template) :
    fieldsOcc (.lit l :: rest) = fieldsOcc rest := rfl

@[simp] theorem fieldsOcc_field (x : String) (rest : Template) :
    fieldsOcc (.field x :: rest) = x :: fieldsOcc rest := rfl

@[simp] theorem render_nil (w : String → List Char) : render w [] = [] := rfl

@[simp] theorem render_lit (w : String → List Char) (l : List Char) (rest : Template) :
    render w (.lit l :: rest) = l ++ render w rest := rfl

@[simp] theorem render_field (w : String → List Char) (x : String) (rest : Template) :
    render w (.field x :: rest) = w x ++ render w rest := rfl

theorem alookup_append {α : Type} (l₁ l₂ : List (String × α)) (x : String) :
    alookup (l₁ ++ l₂) x =
      match alookup l₁ x with
      | some v => some v
      | none => alookup l₂ x := by
  induction l₁ with
  | nil => rfl
  | cons p rest ih =>
    by_cases h : p.1 = x
    · simp [alookup, h]
    · simp [alookup, h, ih]

theorem alookup_append_right {α : Type} {l₁ : List (String × α)} (l₂ : List (String × α))
    {x : String} (h : ∀ p ∈ l₁, p.1 ≠ x) :
    alookup (l₁ ++ l₂) x = alookup l₂ x := by
  rw [alookup_append]
  have hnone : alookup l₁ x = none := by
    induction l₁ with
    | nil => rfl
    | cons p rest ih =>
      simp only [alookup, if_neg (h p (by simp))]
      exact ih fun q hq => h q (by simp [hq])
  rw [hnone]

theorem tryCaps_none {β : Type} {f : Nat → Option β} {n : Nat}
    (h : ∀ j < n, f j = none) : tryCaps f n = none := by
  induction n with
  | zero => rfl
  | succ m ih =>
    simp only [tryCaps]
    rw [ih fun j hj => h j (Nat.lt_succ_of_lt hj), h m (Nat.lt_succ_self m)]

theorem tryCaps_first {β : Type} {f : Nat → Option β} {k n : Nat} {b : β}
    (hk : f k = some b) (hmin : ∀ j < k, f j = none) (hn : k < n) :
    tryCaps f n = some b := by
  induction n with
  | zero => exact absurd hn (Nat.not_lt_zero k)
  | succ m ih =>
    simp only [tryCaps]
    rcases Nat.lt_succ_iff_lt_or_eq.mp hn with h | h
    · rw [ih h]
    · subst h
      rw [tryCaps_none hmin, hk]

theorem tryCaps_isSome {β : Type} {f : Nat → Option β} {k n : Nat}
    (hk : (f k).isSome) (hn : k < n) : (tryCaps f n).isSome := by
  induction n with
  | zero => exact absurd hn (Nat.not_lt_zero k)
  | succ m ih =>
    simp only [tryCaps]
    cases hm : tryCaps f m with
    | some b => simp
    | none =>
      rcases Nat.lt_succ_iff_lt_or_eq.mp hn with h | h
      · have := ih h
        rw [hm] at this
        simp at this
      · subst h
        exact hk

theorem tryCaps_inv {β : Type} {f : Nat → Option β} {n : Nat} {b : β}
    (h : tryCaps f n = some b) : ∃ k, k < n ∧ f k = some b := by
  induction n with
  | zero => simp [tryCaps] at h
  | succ m ih =>
    simp only [tryCaps] at h
    cases hm : tryCaps f m with
    | some c =>
      rw [hm] at h
      cases h
      obtain ⟨k, hk, hfk⟩ := ih hm
      exact ⟨k, Nat.lt_succ_of_lt hk, hfk⟩
    | none =>
      rw [hm] at h
      exact ⟨m, Nat.lt_succ_self m, h⟩

theorem alookup_mem {α : Type} :
    ∀ {l : List (String × α)} {x : String} {v : α},
      alookup l x = some v → (x, v) ∈ l := by
  intro l
  induction l with
  | nil => intro x v h; cases h
  | cons p rest ih =>
    intro x v h
    simp only [alookup] at h
    by_cases hx : p.1 = x
    · rw [if_pos hx] at h
      cases h
      exact List.mem_cons.mpr (Or.inl (by rw [← hx]))
    · rw [if_neg hx] at h
      exact List.mem_cons_of_mem _ (ih h)

theorem prefix_eq_append_drop {l s : List Char} (h : l.isPrefixOf s) :
    s = l ++ s.drop l.length := by
  have hp : l <+: s := List.isPrefixOf_iff_prefix.mp h
  conv_lhs => rw [← List.take_append_drop l.length s]
  rw [← List.prefix_iff_eq_take.mp hp]

/-- Soundness of the matching grammar: a successful match decomposes the input
as the rendering of the template at the captured (per-name, hence
occurrence-consistent) values, all of which are nonempty. -/
theorem pmatch_sound {t : Template} :
    ∀ {env s envF}, (∀ p ∈ env, p.2 ≠ []) → pmatch t env s = some envF →
      ∃ ext, envF = ext ++ env ∧
        (∀ p ∈ ext, p.1 ∈ fieldsOcc t ∧ alookup env p.1 = none ∧ p.2 ≠ []) ∧
        (∀ x ∈ fieldsOcc t, ∃ v, alookup envF x = some v ∧ v ≠ []) ∧
        s = render (envVal envF) t := by
  induction t with
  | nil =>
    intro env s envF _ h
    simp only [pmatch] at h
    split at h
    · cases h
      next hs =>
        refine ⟨[], by simp, by simp, by simp, ?_⟩
        simpa [List.isEmpty_iff] using hs
    · cases h
  | cons seg rest ih =>
    intro env s envF henv h
    match seg with
    | .lit l =>
      simp only [pmatch] at h
      split at h
      case isTrue hpre =>
        obtain ⟨ext, hval, hext, hfields, hs⟩ := ih henv h
        exact ⟨ext, hval, hext, hfields, by
          simp only [render_lit, ← hs]
          exact prefix_eq_append_drop hpre⟩
      case isFalse => cases h
    | .field x =>
      simp only [pmatch] at h
      cases hlk : alookup env x with
      | some v =>
        rw [hlk] at h
        dsimp only at h
        by_cases hpre : v.isPrefixOf s
        · rw [if_pos hpre] at h
          obtain ⟨ext, hval, hext, hfields, hs⟩ := ih henv h
          have hxext : ∀ p ∈ ext, p.1 ≠ x := by
            intro p hp hpx
            have := (hext p hp).2.1
            rw [hpx, hlk] at this
            cases this
          have hlkF : alookup envF x = some v := by
            rw [hval, alookup_append_right env hxext, hlk]
          have hvne : v ≠ [] := henv (x, v) (alookup_mem hlk)
          refine ⟨ext, hval,
            fun p hp => ⟨by simp [(hext p hp).1], (hext p hp).2.1, (hext p hp).2.2⟩,
            ?_, ?_⟩
          · intro y hy
            simp only [fieldsOcc_field, List.mem_cons] at hy
            rcases hy with hy | hy
            · exact hy ▸ ⟨v, hlkF, hvne⟩
            · exact hfields y hy
          · simp only [render_field, ← hs, envVal, hlkF, Option.getD_some]
            exact prefix_eq_append_drop hpre
        · rw [if_neg hpre] at h
          cases h
      | none =>
        rw [hlk] at h
        dsimp only at h
        obtain ⟨k, hkn, hk⟩ := tryCaps_inv h
        have hsne : s ≠ [] := by
          intro hs0
          rw [hs0] at hkn
          exact Nat.not_lt_zero k hkn
        have htake : s.take (k + 1) ≠ [] := by
          simp [List.take_eq_nil_iff, hsne]
        have henv' : ∀ p ∈ (x, s.take (k + 1)) :: env, p.2 ≠ [] := by
          intro p hp
          rcases List.mem_cons.mp hp with hp | hp
          · rw [hp]; exact htake
          · exact henv p hp
        obtain ⟨ext', hval, hext, hfields, hs⟩ := ih henv' hk
        have hxext' : ∀ p ∈ ext', p.1 ≠ x := by
          intro p hp hpx
          have := (hext p hp).2.1
          rw [hpx] at this
          simp [alookup] at this
        have hlkF : alookup envF x = some (s.take (k + 1)) := by
          rw [hval, alookup_append_right _ hxext']
          simp [alookup]
        refine ⟨ext' ++ [(x, s.take (k + 1))], by simp [hval], ?_, ?_, ?_⟩
        · intro p hp
          rcases List.mem_append.mp hp with hp | hp
          · have h1 := (hext p hp).1
            have h2 := (hext p hp).2.1
            have h3 := (hext p hp).2.2
            have hne : x ≠ p.1 := by
              intro hxe
              rw [← hxe] at h2
              simp [alookup] at h2
            simp only [alookup, if_neg hne] at h2
            exact ⟨by simp [h1], h2, h3⟩
          · simp only [List.mem_singleton] at hp
            rw [hp]
            exact ⟨by simp, hlk, htake⟩
        · intro y hy
          simp only [fieldsOcc_field, List.mem_cons] at hy
          rcases hy with hy | hy
          · exact hy ▸ ⟨s.take (k + 1), hlkF, htake⟩
          · exact hfields y hy
        · simp only [render_field, ← hs, envVal, hlkF, Option.getD_some,
            List.take_append_drop]

/-- Completeness of the matching grammar: any per-name assignment of nonempty
values rendering to `s` makes the match succeed. -/
theorem pmatch_complete {w : String → List Char} {t : Template} :
    ∀ {env : Env}, (∀ x ∈ fieldsOcc t, w x ≠ []) →
      (∀ x ∈ fieldsOcc t, alookup env x = none ∨ alookup env x = some (w x)) →
      (pmatch t env (render w t)).isSome := by
  induction t with
  | nil =>
    intro env _ _
    simp [pmatch]
  | cons seg rest ih =>
    intro env hne hcompat
    match seg with
    | .lit l =>
      have hpre : l.isPrefixOf (l ++ render w rest) :=
        List.isPrefixOf_iff_prefix.mpr (List.prefix_append l _)
      simp only [render_lit, pmatch, hpre, if_true]
      rw [List.drop_left]
      exact ih (fun x hx => hne x (by simp [hx])) fun x hx => hcompat x (by simp [hx])
    | .field x =>
      simp only [render_field, pmatch]
      have hwne := hne x (by simp)
      rcases hcompat x (by simp) with hpe | hpe
      · rw [hpe]
        dsimp only
        have hlen : 0 < (w x).length := List.length_pos.mpr hwne
        have hk1 : (w x).length - 1 + 1 = (w x).length := Nat.succ_pred_eq_of_pos hlen
        have hrec : (pmatch rest ((x, w x) :: env) (render w rest)).isSome := by
          refine ih (fun y hy => hne y (by simp [hy])) fun y hy => ?_
          by_cases hxy : x = y
          · right
            simp [alookup, hxy]
          · simpa [alookup, hxy] using hcompat y (by simp [hy])
        have hk : (pmatch rest
            ((x, (w x ++ render w rest).take ((w x).length - 1 + 1)) :: env)
            ((w x ++ render w rest).drop ((w x).length - 1 + 1))).isSome := by
          rw [hk1, List.take_left, List.drop_left]
          exact hrec
        refine tryCaps_isSome hk ?_
        rw [List.length_append]
        omega
      · rw [hpe]
        dsimp only
        have hpre : (w x).isPrefixOf (w x ++ render w rest) :=
          List.isPrefixOf_iff_prefix.mpr (List.prefix_append _ _)
        rw [if_pos hpre, List.drop_left]
        exact ih (fun y hy => hne y (by simp [hy])) fun y hy => hcompat y (by simp [hy])

/-- **C2**: a candidate string is successfully parsed iff there is a single
per-field-name assignment of (nonempty) values rendering the template to the
string — so every occurrence of a repeated field must capture the identical
substring.  In particular `"{x}_{x}"` matches `"ab_ab"` but not `"ab_cd"`. -/
theorem repeated_field_consistent :
    (∀ (t : Template) (s : List Char),
        (pmatch t [] s).isSome = true ↔
          ∃ w : String → List Char,
            (∀ x ∈ fieldsOcc t, w x ≠ []) ∧ s = render w t) ∧
      (pmatch tplXX [] "ab_ab".data).isSome = true ∧
      (pmatch tplXX [] "ab_cd".data).isSome = false := by
  refine ⟨fun t s => ⟨fun h => ?_, fun ⟨w, hw, hs⟩ => ?_⟩, by decide, by decide⟩
  · obtain ⟨envF, henvF⟩ := Option.isSome_iff_exists.mp h
    obtain ⟨ext, _, _, hfields, hs⟩ := pmatch_sound (by simp) henvF
    refine ⟨envVal envF, fun x hx => ?_, hs⟩
    obtain ⟨v, hv, hvne⟩ := hfields x hx
    simp [envVal, hv, hvne]
  · subst hs
    exact pmatch_complete hw fun x _ => Or.inl rfl

@[simp] theorem litChars_nil : litChars [] = [] := rfl

@[simp] theorem litChars_lit (l : List Char) (rest : Template) :
    litChars (.lit l :: rest) = l ++ litChars rest := rfl

@[simp] theorem litChars_field (x : String) (rest : Template) :
    litChars (.field x :: rest) = litChars rest := rfl

/-- Separation condition for the round-trip property: every placeholder is
either the last segment or immediately followed by a nonempty literal. -/
def sepOK : Template → Bool
  | [] => true
  | .lit _ :: rest => sepOK rest
  | .field _ :: [] => true
  | .field _ :: .lit l :: rest => !l.isEmpty && sepOK (.lit l :: rest)
  | .field _ :: .field _ :: _ => false

theorem sepOK_field_tail {x : String} {rest : Template}
    (h : sepOK (.field x :: rest) = true) :
    sepOK rest = true ∧ (rest = [] ∨ ∃ l rest2, rest = .lit l :: rest2 ∧ l ≠ []) := by
  match rest with
  | [] => exact ⟨rfl, Or.inl rfl⟩
  | .lit l :: rest2 =>
    simp only [sepOK, Bool.and_eq_true, Bool.not_eq_true'] at h
    refine ⟨by simpa [sepOK] using h.2, Or.inr ⟨l, rest2, rfl, ?_⟩⟩
    simpa [List.isEmpty_iff] using h.1
  | .field _ :: _ => simp [sepOK] at h

theorem alookup_of_mem_keys {w : String → List Char} :
    ∀ {ext : Env} {x : String}, (∀ p ∈ ext, p.2 = w p.1) →
      x ∈ ext.map Prod.fst → alookup ext x = some (w x) := by
  intro ext
  induction ext with
  | nil =>
    intro x _ hx
    simp at hx
  | cons p rest ih =>
    intro x hw hx
    simp only [alookup]
    by_cases hpx : p.1 = x
    · rw [if_pos hpx, hw p (by simp), hpx]
    · rw [if_neg hpx]
      refine ih (fun q hq => hw q (by simp [hq])) ?_
      simp only [List.map_cons, List.mem_cons] at hx
      rcases hx with hx | hx
      · exact absurd hx.symm hpx
      · exact hx

/-- Round-trip auxiliary: on a template whose placeholders are separated by
nonempty literals, with distinct field names, nonempty values, and value
characters disjoint from literal characters, the non-greedy match of the
rendered string recovers exactly the given values. -/
theorem pmatch_render_aux {w : String → List Char} :
    ∀ (t : Template) (env : Env),
      sepOK t = true →
      (fieldsOcc t).Nodup →
      (∀ x ∈ fieldsOcc t, w x ≠ []) →
      (∀ x ∈ fieldsOcc t, ∀ c ∈ w x, c ∉ litChars t) →
      (∀ x ∈ fieldsOcc t, alookup env x = none) →
      ∃ ext, pmatch t env (render w t) = some (ext ++ env) ∧
        (∀ p ∈ ext, p.2 = w p.1) ∧
        (∀ x ∈ fieldsOcc t, x ∈ ext.map Prod.fst) := by
  intro t
  induction t with
  | nil =>
    intro env _ _ _ _ _
    exact ⟨[], by simp [pmatch, render], by simp, by simp⟩
  | cons seg rest ih =>
    intro env hsep hnd hne hdisj hlk
    match seg with
    | .lit l =>
      obtain ⟨ext, hm, hw, hcov⟩ := ih env (by simpa [sepOK] using hsep)
        (by simpa using hnd)
        (fun y hy => hne y (by simpa using hy))
        (fun y hy c hc hmem =>
          hdisj y (by simpa using hy) c hc (by simp [hmem]))
        (fun y hy => hlk y (by simpa using hy))
      refine ⟨ext, ?_, hw, by simpa using hcov⟩
      simp only [render_lit, pmatch]
      rw [if_pos (List.isPrefixOf_iff_prefix.mpr (List.prefix_append l _)),
        List.drop_left]
      exact hm
    | .field x =>
      obtain ⟨hsep', hshape⟩ := sepOK_field_tail hsep
      have hx0 : x ∈ fieldsOcc (.field x :: rest) := by simp
      have hndc := List.nodup_cons.mp (by simpa using hnd)
      have hwx : w x ≠ [] := hne x hx0
      have hlen : 0 < (w x).length := List.length_pos.mpr hwx
      have henv' : ∀ y ∈ fieldsOcc rest, alookup ((x, w x) :: env) y = none := by
        intro y hy
        have hxy : x ≠ y := fun h => hndc.1 (h ▸ hy)
        simp only [alookup, if_neg hxy]
        exact hlk y (by simp [hy])
      obtain ⟨ext', hm', hw', hcov'⟩ := ih ((x, w x) :: env) hsep' hndc.2
        (fun y hy => hne y (by simp [hy]))
        (fun y hy c hc => hdisj y (by simp [hy]) c hc)
        henv'
      have hk1 : (w x).length - 1 + 1 = (w x).length := Nat.succ_pred_eq_of_pos hlen
      have hfk : pmatch rest
          ((x, (w x ++ render w rest).take ((w x).length - 1 + 1)) :: env)
          ((w x ++ render w rest).drop ((w x).length - 1 + 1))
          = some (ext' ++ ((x, w x) :: env)) := by
        rw [hk1, List.take_left, List.drop_left]
        exact hm'
      have hfail : ∀ j < (w x).length - 1,
          pmatch rest ((x, (w x ++ render w rest).take (j + 1)) :: env)
            ((w x ++ render w rest).drop (j + 1)) = none := by
        intro j hj
        have hj1 : j + 1 < (w x).length := by omega
        have hdropeq : (w x ++ render w rest).drop (j + 1)
            = (w x).drop (j + 1) ++ render w rest :=
          List.drop_append_of_le_length (by omega)
        have hdne : (w x).drop (j + 1) ≠ [] := by
          rw [ne_eq, List.drop_eq_nil_iff]
          omega
        obtain ⟨b, db, hdval⟩ := List.exists_cons_of_ne_nil hdne
        have hbwx : b ∈ w x := List.drop_subset (j + 1) (w x) (by rw [hdval]; simp)
        rcases hshape with hrest | ⟨l, rest2, hrest, hlne⟩
        · subst hrest
          rw [hdropeq, hdval]
          simp [pmatch]
        · subst hrest
          rw [hdropeq]
          simp only [render_lit, pmatch]
          rw [if_neg]
          intro hpre
          obtain ⟨u, hu⟩ := List.isPrefixOf_iff_prefix.mp hpre
          obtain ⟨a, la, hl⟩ := List.exists_cons_of_ne_nil hlne
          rw [hl, hdval] at hu
          simp only [List.cons_append, List.cons.injEq] at hu
          refine hdisj x hx0 b hbwx ?_
          simp only [litChars_field, litChars_lit, List.mem_append]
          exact Or.inl (by rw [hl, ← hu.1]; simp)
      refine ⟨ext' ++ [(x, w x)], ?_, ?_, ?_⟩
      · simp only [render_field, pmatch, hlk x hx0]
        have := tryCaps_first (f := fun n => pmatch rest
            ((x, (w x ++ render w rest).take (n + 1)) :: env)
            ((w x ++ render w rest).drop (n + 1)))
          (k := (w x).length - 1) (n := (w x ++ render w rest).length)
          hfk hfail (by rw [List.length_append]; omega)
        rw [this]
        simp [List.append_assoc]
      · intro p hp
        rcases List.mem_append.mp hp with hp | hp
        · exact hw' p hp
        · simp only [List.mem_singleton] at hp
          rw [hp]
      · intro y hy
        simp only [fieldsOcc_field, List.mem_cons] at hy
        rcases hy with hy | hy
        · subst hy
          simp
        · simp only [List.map_append, List.mem_append]
          exact Or.inl (hcov' y hy)

/-- The template `"{a}{b}"` with two adjacent placeholders. -/
def tplAB : Template := [.field "a", .field "b"]

/-- The value assignment `a := "xy"`, `b := "z"`. -/
def wAB : String → List Char :=
  fun x => if x = "a" then ['x', 'y'] else if x = "b" then ['z'] else []

/-- **C4 counterexample**: the template `"{a}{b}"` has no repeated field names
and the values `a := "xy"`, `b := "z"` share no character with the (empty)
literal text, yet parsing the built name `"xyz"` captures `a := "x"` (the
non-greedy grammar takes the shortest split), not `a := "xy"`:
`parse(build(fields)) ≠ fields`. -/
theorem parse_build_roundtrip_cex :
    (fieldsOcc tplAB).Nodup ∧
    (∀ x ∈ fieldsOcc tplAB, ∀ c ∈ wAB x, c ∉ litChars tplAB) ∧
    (∀ x ∈ fieldsOcc tplAB, wAB x ≠ []) ∧
    render wAB tplAB = ['x', 'y', 'z'] ∧
    (pmatch tplAB [] (render wAB tplAB)).map (fun env => envVal env "a")
      = some ['x'] ∧
    wAB "a" = ['x', 'y'] := by
  decide

/-- **C4 (amended)**: for templates with no repeated field names in which
every placeholder is followed by a nonempty literal (or is last), and for
nonempty values whose characters do not collide with the template's literal
text, parsing the built name recovers exactly the assigned fields. -/
theorem parse_build_roundtrip (t : Template) (w : String → List Char)
    (hsep : sepOK t = true) (hnd : (fieldsOcc t).Nodup)
    (hne : ∀ x ∈ fieldsOcc t, w x ≠ [])
    (hdisj : ∀ x ∈ fieldsOcc t, ∀ c ∈ w x, c ∉ litChars t) :
    ∃ env, pmatch t [] (render w t) = some env ∧
      ∀ x ∈ fieldsOcc t, alookup env x = some (w x) := by
  obtain ⟨ext, hm, hw, hcov⟩ :=
    pmatch_render_aux t [] hsep hnd hne hdisj (fun x _ => rfl)
  refine ⟨ext ++ [], hm, fun x hx => ?_⟩
  rw [List.append_nil]
  exact alookup_of_mem_keys hw (hcov x hx)

/-- A concrete separated template `"/d/{a}_{b}"`. -/
def tplW : Template := [.lit ['/', 'd', '/'], .field "a", .lit ['_'], .field "b"]

/-- The value assignment `a := "xy"`, `b := "z9"`. -/
def wW : String → List Char :=
  fun x => if x = "a" then ['x', 'y'] else if x = "b" then ['z', '9'] else ['q']

theorem parse_build_roundtrip_witness :
    ∃ env, pmatch tplW [] (render wW tplW) = some env ∧
      ∀ x ∈ fieldsOcc tplW, alookup env x = some (wW x) :=
  parse_build_roundtrip tplW wW (by decide) (by decide) (by decide) (by decide)

/-! ## Template compilation and `FileFinder` construction -/

/-- Prepend one literal character to a template, merging with a leading
literal segment. -/
def consLit (c : Char) : Template → Template
  | .lit l :: rest => .lit (c :: l) :: rest
  | t => .lit [c] :: t

/-- The field name of a placeholder body: the characters before the first
`:` (the format spec, if any, is stripped — it never affects field
identity). -/
def nameOf (acc : List Char) : String :=
  String.mk (acc.takeWhile (· ≠ ':'))

/-- Modelled from the spec: scanning a `{name}` / `{name:format-hint}`
template string into segments (the compilation performed by the external
`parse.compile`, whose implementation is not part of this repository).
The state is `some acc` while inside braces.  Escaped braces (`{{`/`}}`)
are not modelled; no claim involves them. -/
def compileTAux : Option (List Char) → List Char → Except String Template
  | none, [] => .ok []
  | none, c :: rest =>
    if c = '{' then compileTAux (some []) rest
    else (compileTAux none rest).map (consLit c)
  | some _, [] => .error "unterminated placeholder in format string"
  | some acc, c :: rest =>
    if c = '}' then (compileTAux none rest).map (.field (nameOf acc) :: ·)
    else compileTAux (some (acc ++ [c])) rest

/-- Compile a template string into segments. -/
def compileT (pattern : List Char) : Except String Template :=
  compileTAux none pattern

instance {ε α : Type} [DecidableEq ε] [DecidableEq α] : DecidableEq (Except ε α) := fun
  | .ok a, .ok b => if h : a = b then isTrue (by rw [h]) else isFalse (by simp [h])
  | .ok _, .error _ => isFalse (by simp)
  | .error _, .ok _ => isFalse (by simp)
  | .error e, .error f => if h : e = f then isTrue (by rw [h]) else isFalse (by simp [h])

example : compileT "/d/{a}_{b:d}".data = .ok tplW := by decide

/-- Characters allowed in a field name by the `_find_keys` regex
(`[A-Za-z0-9_]+`). -/
def isWordChar (c : Char) : Bool :=
  c.isAlphanum || c = '_'

/-- A valid (named, non-anonymous) field name. -/
def validFieldName (nm : String) : Bool :=
  !nm.data.isEmpty && nm.data.all isWordChar

/-- First-occurrence-order deduplication (`pd.Series(keys).unique()`). -/
def dedupFirstAux {α : Type} [DecidableEq α] (seen : List α) : List α → List α
  | [] => []
  | x :: xs =>
    if x ∈ seen then dedupFirstAux seen xs
    else x :: dedupFirstAux (x :: seen) xs

/-- First-occurrence-order deduplication. -/
def dedupFirst {α : Type} [DecidableEq α] (l : List α) : List α :=
  dedupFirstAux [] l

/-- The reserved placeholder names (`_RESERVED_PLACEHOLDERS`). -/
def RESERVED : List String :=
  ["keys", "on_parse_error", "on_empty", "_allow_empty"]

/-- A compiled finder: `_FinderBase.__init__` output (pattern, parsed
template, distinct keys in first-occurrence order, and the suffix appended
to parsed paths). -/
structure FinderB where
  pattern : List Char
  template : Template
  keys : List String
  suffix : List Char
  deriving Repr, DecidableEq

/-- The `parser.fixed_fields` error message. -/
def onlyNamedMsg : String :=
  "Only named fields are currently allowed: avoid empty braces and leading underscores."

/-- `_FinderBase.__init__`: compile the pattern, extract the distinct keys
(`_find_keys`), reject reserved placeholder names (`_assert_valid_keys`) and
anonymous fields (`parser.fixed_fields`).  `_find_keys` itself cannot fail,
so compilation errors are checked before the reserved-name check here; the
two checks never both fire on the inputs of any claim. -/
def mkFinderBase (pattern suffix : List Char) : Except String FinderB :=
  match compileT pattern with
  | .error e => .error e
  | .ok t =>
    let keys := dedupFirst ((fieldsOcc t).filter validFieldName)
    match RESERVED.find? (fun k => keys.contains k) with
    | some k => .error ("'" ++ k ++ "' is not a valid placeholder")
    | none =>
      if (fieldsOcc t).all validFieldName then .ok ⟨pattern, t, keys, suffix⟩
      else .error onlyNamedMsg

/-- Two-argument `os.path.join` for POSIX (`os.path.sep = '/'`). -/
def joinPath (a b : List Char) : List Char :=
  if b.head? = some '/' then b
  else if a = [] then b
  else if a.getLast? = some '/' then a ++ b
  else a ++ '/' :: b

/-- `os.path.join(*filter(None, (pp, fp)))`: empty components are dropped;
joining zero components is a `TypeError` in Python. -/
def joinFiltered (pp fp : List Char) : Except String (List Char) :=
  if pp.isEmpty && fp.isEmpty then .error "join() missing required argument"
  else if pp.isEmpty then .ok fp
  else if fp.isEmpty then .ok pp
  else .ok (joinPath pp fp)

/-- A constructed `FileFinder`: the file, path (folder) and full finders. -/
structure FFinder where
  file : FinderB
  path : FinderB
  full : FinderB
  deriving Repr, DecidableEq

/-- The error raised when `file_pattern` contains the path separator. -/
def sepMsg : String := "`file_pattern` cannot contain path separator ('/')"

/-- `FileFinder.__init__`: the separator check on `file_pattern` comes
first; then the file finder is built from `file_pattern`, the path finder
from `os.path.join(path_pattern, "")` with suffix `"*"`, and the full finder
from `os.path.join(*filter(None, (path_pattern, file_pattern)))`. -/
def mkFileFinder (pp fp : List Char) : Except String FFinder :=
  if '/' ∈ fp then .error sepMsg
  else
    match mkFinderBase fp [] with
    | .error e => .error e
    | .ok file =>
      match mkFinderBase (joinPath pp []) ['*'] with
      | .error e => .error e
      | .ok path =>
        match joinFiltered pp fp with
        | .error e => .error e
        | .ok fullPat =>
          match mkFinderBase fullPat [] with
          | .error e => .error e
          | .ok full => .ok ⟨file, path, full⟩

/-- **C9**: constructing a `FileFinder` whose `file_pattern` contains the
path separator fails immediately with the separator error, before any
template is compiled (the result is this error even when the patterns are
otherwise malformed). -/
theorem filefinder_sep_check (pp fp : List Char) (h : '/' ∈ fp) :
    mkFileFinder pp fp = .error sepMsg := by
  simp [mkFileFinder, h]

theorem filefinder_sep_check_witness :
    '/' ∈ "a/b".data ∧ mkFileFinder ['{', 'x'] "a/b".data = .error sepMsg :=
  ⟨by decide, filefinder_sep_check ['{', 'x'] "a/b".data (by decide)⟩

/-! ## Query expansion -/

/-- A query value: a single string (always one candidate, never an iterable
of characters) or a list of candidates. -/
inductive QVal where
  | scalar (s : List Char)
  | many (vs : List (List Char))
  deriving Repr, DecidableEq

/-- The scalar-wrap step of `_Finder.find`: strings and scalars become
one-element lists. -/
def wrapQ : QVal → List (List Char)
  | .scalar s => [s]
  | .many vs => vs

/-- `product_dict`: all combinations of the per-key candidate lists, the
last key varying fastest (`itertools.product` order). -/
def productDict : List (String × List (List Char)) → List (List (String × List Char))
  | [] => [[]]
  | (k, vs) :: rest =>
    (vs.map (fun v => (productDict rest).map (fun d => (k, v) :: d))).flatten

/-- `_Finder._create_condition_dict` followed by `create_name`: every
template key not in the combination gets the wildcard `"*"`. -/
def createName (f : FinderB) (combo : List (String × List Char)) : List Char :=
  render (fun x => (alookup combo x).getD ['*']) f.template

/-- The concrete search patterns generated by one `find` call. -/
def searchPatterns (f : FinderB) (keysW : List (String × List (List Char))) :
    List (List Char) :=
  (productDict keysW).map (createName f)

theorem length_productDict (q : List (String × List (List Char))) :
    (productDict q).length = (q.map (fun p => p.2.length)).prod := by
  induction q with
  | nil => rfl
  | cons p rest ih =>
    obtain ⟨k, vs⟩ := p
    have key : ∀ vs' : List (List Char),
        ((vs'.map (fun v => (productDict rest).map (fun d => (k, v) :: d))).flatten).length
          = vs'.length * (productDict rest).length := by
      intro vs'
      induction vs' with
      | nil => simp
      | cons v vt ihv => simp [ihv, Nat.succ_mul, Nat.add_comm]
    simp only [productDict, List.map_cons, List.prod_cons]
    rw [key, ih]

/-- **C5**: query expansion produces exactly the product of the candidate-list
lengths of the constrained fields (a wrapped scalar contributes factor 1;
unconstrained fields are absent from the query and contribute factor 1), and
with no constrained fields exactly one all-wildcard pattern is produced. -/
theorem query_expansion_cardinality :
    (∀ (f : FinderB) (q : List (String × QVal)),
        (searchPatterns f (q.map fun p => (p.1, wrapQ p.2))).length
          = (q.map fun p => (wrapQ p.2).length).prod) ∧
      ∀ f : FinderB, searchPatterns f [] = [render (fun _ => ['*']) f.template] := by
  constructor
  · intro f q
    simp only [searchPatterns, List.length_map, length_productDict, List.map_map]
    rfl
  · intro f
    rfl

/-! ## Natural sorting (`utils.natural_keys`) -/

/-- An atom of a natural sort key: a non-digit chunk, or a maximal digit run
converted to its numeric value (`atoi`). -/
inductive NKey where
  | str (s : List Char)
  | num (n : Nat)
  deriving Repr, DecidableEq

/-- A raw chunk of `re.split(r"(\d+)", text)`: non-digit text or a captured
digit run. -/
inductive RawChunk where
  | strC (s : List Char)
  | digC (d : List Char)
  deriving Repr, DecidableEq

/-- `re.split(r"(\d+)", text)`: alternating non-digit chunks and maximal
digit runs, starting and ending with a (possibly empty) non-digit chunk. -/
def splitGo : List Char → List RawChunk
  | [] => [.strC []]
  | c :: rest =>
    let r := splitGo rest
    if c.isDigit then
      match r with
      | .strC [] :: .digC d :: tail => .strC [] :: .digC (c :: d) :: tail
      | _ => .strC [] :: .digC [c] :: r
    else
      match r with
      | .strC s :: tail => .strC (c :: s) :: tail
      | _ => .strC [c] :: r

/-- Decimal value of a digit run. -/
def digitVal (d : List Char) : Nat :=
  d.foldl (fun acc c => acc * 10 + (c.toNat - '0'.toNat)) 0

/-- `natural_keys`: split on digit runs and apply `atoi` to each chunk. -/
def natKey (s : List Char) : List NKey :=
  (splitGo s).map fun chunk =>
    match chunk with
    | .strC s => .str s
    | .digC d => .num (digitVal d)

/-- Lexicographic strict order on character lists (Python `str <`). -/
def lexLt : List Char → List Char → Bool
  | [], [] => false
  | [], _ :: _ => true
  | _ :: _, [] => false
  | a :: as, b :: bs => if a = b then lexLt as bs else decide (a < b)

/-- Strict order on key atoms.  Same-kind comparisons follow Python (`int <`
and `str <`); at any fixed atom position the kinds always agree (digit runs
sit at odd positions), so the mixed cases are never reached when comparing
keys of strings — Python would raise `TypeError` there. -/
def atomLt : NKey → NKey → Bool
  | .num a, .num b => decide (a < b)
  | .str a, .str b => lexLt a b
  | .num _, .str _ => true
  | .str _, .num _ => false

/-- Lexicographic strict order on atom lists (Python `list <`). -/
def keysLt : List NKey → List NKey → Bool
  | [], [] => false
  | [], _ :: _ => true
  | _ :: _, [] => false
  | a :: as, b :: bs => if a = b then keysLt as bs else atomLt a b

/-- The natural sort order on paths: compare `natural_keys`. -/
def natLt (s t : List Char) : Bool :=
  keysLt (natKey s) (natKey t)

/-- Stable insertion into a sorted list (used by `sorted(key=natural_keys)`:
an element is placed after all strictly smaller elements and before equal
ones, preserving input order of equals). -/
def insertNat (x : List Char) : List (List Char) → List (List Char)
  | [] => [x]
  | y :: ys => if natLt y x then y :: insertNat x ys else x :: y :: ys

/-- Stable sort by natural keys (`sorted(paths, key=natural_keys)`). -/
def sortPaths : List (List Char) → List (List Char)
  | [] => []
  | x :: xs => insertNat x (sortPaths xs)

/-- Non-strictly ascending w.r.t. the natural order. -/
def sortedNat : List (List Char) → Bool
  | [] => true
  | [_] => true
  | x :: y :: rest => !natLt y x && sortedNat (y :: rest)

theorem lexLt_asymm : ∀ {a b : List Char}, lexLt a b = true → lexLt b a = false := by
  intro a
  induction a with
  | nil =>
    intro b h
    cases b with
    | nil => simp [lexLt] at h
    | cons x xs => simp [lexLt]
  | cons x xs ih =>
    intro b h
    cases b with
    | nil => simp [lexLt] at h
    | cons y ys =>
      simp only [lexLt] at h ⊢
      by_cases hxy : x = y
      · rw [if_pos hxy] at h
        rw [if_pos hxy.symm]
        exact ih h
      · rw [if_neg hxy] at h
        rw [if_neg (fun hyx => hxy hyx.symm)]
        simp only [decide_eq_true_eq] at h
        simp [not_lt_of_gt h]

theorem atomLt_asymm : ∀ {a b : NKey}, atomLt a b = true → atomLt b a = false := by
  intro a b h
  match a, b with
  | .num m, .num n =>
    simp only [atomLt, decide_eq_true_eq] at h
    simp only [atomLt, decide_eq_false_iff_not]
    omega
  | .str s, .str t => exact lexLt_asymm h
  | .num _, .str _ => rfl
  | .str _, .num _ => simp [atomLt] at h

theorem keysLt_asymm : ∀ {a b : List NKey}, keysLt a b = true → keysLt b a = false := by
  intro a
  induction a with
  | nil =>
    intro b h
    cases b with
    | nil => simp [keysLt] at h
    | cons y ys => simp [keysLt]
  | cons x xs ih =>
    intro b h
    cases b with
    | nil => simp [keysLt] at h
    | cons y ys =>
      simp only [keysLt] at h ⊢
      by_cases hxy : x = y
      · rw [if_pos hxy] at h
        rw [if_pos hxy.symm]
        exact ih h
      · rw [if_neg hxy] at h
        rw [if_neg (fun hyx => hxy hyx.symm)]
        exact atomLt_asymm h

theorem natLt_asymm {s t : List Char} (h : natLt s t = true) : natLt t s = false :=
  keysLt_asymm h

theorem sortedNat_cons_cons {x y : List Char} {rest : List (List Char)} :
    sortedNat (x :: y :: rest) = true ↔
      natLt y x = false ∧ sortedNat (y :: rest) = true := by
  show (!natLt y x && sortedNat (y :: rest)) = true ↔ _
  cases h : natLt y x <;> simp [h]

theorem sortedNat_insert (x : List Char) :
    ∀ {l : List (List Char)}, sortedNat l = true → sortedNat (insertNat x l) = true := by
  intro l
  induction l with
  | nil => intro _; rfl
  | cons y ys ih =>
    intro hs
    have hys : sortedNat ys = true := by
      cases ys with
      | nil => rfl
      | cons z zs => exact (sortedNat_cons_cons.mp hs).2
    simp only [insertNat]
    by_cases hyx : natLt y x = true
    · rw [if_pos hyx]
      have hins := ih hys
      cases ys with
      | nil =>
        simp only [insertNat]
        exact sortedNat_cons_cons.mpr ⟨natLt_asymm hyx, rfl⟩
      | cons z zs =>
        simp only [insertNat] at hins ⊢
        by_cases hzx : natLt z x = true
        · rw [if_pos hzx] at hins ⊢
          have hzy : natLt z y = false := (sortedNat_cons_cons.mp hs).1
          exact sortedNat_cons_cons.mpr ⟨hzy, hins⟩
        · rw [if_neg hzx] at hins ⊢
          exact sortedNat_cons_cons.mpr ⟨natLt_asymm hyx, hins⟩
    · rw [if_neg hyx]
      exact sortedNat_cons_cons.mpr ⟨by simpa using hyx, hs⟩

theorem sortedNat_sortPaths (l : List (List Char)) : sortedNat (sortPaths l) = true := by
  induction l with
  | nil => rfl
  | cons x xs ih => exact sortedNat_insert x ih

theorem insertNat_perm (x : List Char) :
    ∀ l : List (List Char), List.Perm (insertNat x l) (x :: l) := by
  intro l
  induction l with
  | nil => exact List.Perm.refl _
  | cons y ys ih =>
    simp only [insertNat]
    by_cases h : natLt y x = true
    · rw [if_pos h]
      exact (ih.cons y).trans (List.Perm.swap x y ys)
    · rw [if_neg h]

theorem sortPaths_perm (l : List (List Char)) : List.Perm (sortPaths l) l := by
  induction l with
  | nil => exact List.Perm.refl _
  | cons x xs ih => exact (insertNat_perm x (sortPaths xs)).trans (ih.cons x)

/-! ## Discovery (`_Finder.find`) -/

/-- The metadata table underlying a `FileContainer`: a pandas DataFrame with
the template keys as columns and the (suffixed) paths as index. -/
structure Df where
  columns : List String
  index : List (List Char)
  rows : List (List (List Char))
  deriving Repr, DecidableEq

/-- `df.duplicated().any()`: some row equals an earlier row (the index is
not considered). -/
def hasDupB {α : Type} [DecidableEq α] : List α → Bool
  | [] => false
  | x :: xs => if x ∈ xs then true else hasDupB xs

/-- `df.duplicated().any()` on a DataFrame: on an *empty* frame (any axis of
length zero, in particular zero columns) pandas returns an empty boolean
series, so nothing is flagged. -/
def dupAny (df : Df) : Bool :=
  if df.columns.isEmpty then false else hasDupB df.rows

/-- `_assert_unique` error. -/
def nonUniqueMsg : String := "Non-unique metadata detected."

/-- `_parse_paths` error for an unparsable path under `on_parse_error="raise"`. -/
def parseErrMsg : String :=
  "Could not parse the path with the pattern - are there contradictory values?"

/-- `find` error when no paths were found under `on_empty="raise"`. -/
def emptyMsg : String :=
  "Found no files matching criteria. Tried the following pattern(s):"

/-- The parsing loop of `_Finder._parse_paths`: returns the paths that
parsed and their rows (values in key order); an unparsable path raises under
`on_parse_error="raise"` and is dropped otherwise. -/
def parsePathsGo (t : Template) (keys : List String) (onParseError : String) :
    List (List Char) → Except String (List (List Char) × List (List (List Char)))
  | [] => .ok ([], [])
  | p :: ps =>
    match pmatch t [] p with
    | none =>
      if onParseError = "raise" then .error parseErrMsg
      else parsePathsGo t keys onParseError ps
    | some env =>
      match parsePathsGo t keys onParseError ps with
      | .error e => .error e
      | .ok (vps, rws) => .ok (p :: vps, (keys.map fun k => envVal env k) :: rws)

/-- `_Finder._parse_paths`: parse all collected paths and build the
DataFrame; the finder's suffix is appended to every parsed path to form the
index. -/
def parsePaths (f : FinderB) (onParseError : String) (paths : List (List Char)) :
    Except String Df :=
  match parsePathsGo f.template f.keys onParseError paths with
  | .error e => .error e
  | .ok (vps, rws) => .ok ⟨f.keys, vps.map (· ++ f.suffix), rws⟩

/-- All paths collected by one `find` call: for each concrete search pattern
in expansion order, the path provider's matches sorted naturally, then
concatenated. -/
def collectedPaths (f : FinderB) (glob : List Char → List (List Char))
    (keys : List (String × QVal)) : List (List Char) :=
  ((searchPatterns f (keys.map fun p => (p.1, wrapQ p.2))).map
    fun pat => sortPaths (glob pat)).flatten

/-- `_Finder.find`: validate the policies, expand the query, collect and
sort paths, apply the empty-result policy, parse, and enforce uniqueness.
Only the error paths are modelled for the `warn` policies (a warning does
not change the returned value). -/
def find (f : FinderB) (glob : List Char → List (List Char))
    (keys : List (String × QVal)) (onParseError onEmpty : String) :
    Except String Df :=
  if ¬(onParseError = "raise" ∨ onParseError = "warn" ∨ onParseError = "ignore") then
    .error "Unknown value for 'on_parse_error'. Must be one of 'raise', 'warn' or 'ignore'."
  else if ¬(onEmpty = "raise" ∨ onEmpty = "warn" ∨ onEmpty = "allow") then
    .error "Unknown value for 'on_empty'. Must be one of 'raise', 'warn' or 'allow'."
  else
    if (collectedPaths f glob keys).isEmpty ∧ onEmpty = "raise" then .error emptyMsg
    else
      match parsePaths f onParseError (collectedPaths f glob keys) with
      | .error e => .error e
      | .ok df => if dupAny df then .error nonUniqueMsg else .ok df

/-- The compiled finder for the pattern `"{a}"`. -/
def f8 : FinderB := ⟨"{a}".data, [.field "a"], ["a"], []⟩

/-- **C8**: collected paths are sorted per pattern with the natural order:
the sort is correct in general (sorted output, permutation of the input),
digit runs are split off and compared numerically (`natural_keys("a10") =
["a", 10, ""]`, and `"a2" < "a10"`), the example `["a10","a2","a1"]` sorts
to `["a1","a2","a10"]`, and a `find` call collecting these paths returns
them in that order. -/
theorem natural_sort_collected_paths :
    (∀ l, sortedNat (sortPaths l) = true ∧ List.Perm (sortPaths l) l) ∧
    sortPaths ["a10".data, "a2".data, "a1".data]
      = ["a1".data, "a2".data, "a10".data] ∧
    natLt "a2".data "a10".data = true ∧
    natKey "a10".data = [.str ['a'], .num 10, .str []] ∧
    mkFinderBase "{a}".data [] = .ok f8 ∧
    (find f8 (fun _ => ["a10".data, "a2".data, "a1".data]) [] "raise" "raise").map
      (fun df => df.index) = .ok ["a1".data, "a2".data, "a10".data] :=
  ⟨fun l => ⟨sortedNat_sortPaths l, sortPaths_perm l⟩,
    by decide, by decide, by decide, by decide, by decide⟩

theorem hasDupB_eq_true_iff {α : Type} [DecidableEq α] :
    ∀ {l : List α}, hasDupB l = true ↔ ¬l.Nodup := by
  intro l
  induction l with
  | nil => simp [hasDupB]
  | cons x xs ih =>
    simp only [hasDupB, List.nodup_cons]
    by_cases hx : x ∈ xs
    · simp [hx]
    · simp [hx, ih]

theorem parsePathsGo_ok {t : Template} {keys : List String} {opol : String} :
    ∀ {paths vps rws},
      parsePathsGo t keys opol paths = .ok (vps, rws) →
      vps = paths.filter (fun p => (pmatch t [] p).isSome) ∧
      rws = paths.filterMap
        (fun p => (pmatch t [] p).map fun env => keys.map (envVal env)) := by
  intro paths
  induction paths with
  | nil =>
    intro vps rws h
    cases h
    simp
  | cons p ps ih =>
    intro vps rws h
    simp only [parsePathsGo] at h
    cases hm : pmatch t [] p with
    | none =>
      rw [hm] at h
      dsimp only at h
      split at h
      · cases h
      · obtain ⟨h1, h2⟩ := ih h
        refine ⟨?_, ?_⟩
        · simp [List.filter_cons, hm, h1]
        · simp [List.filterMap_cons, hm, h2]
    | some env =>
      rw [hm] at h
      dsimp only at h
      cases hr : parsePathsGo t keys opol ps with
      | error e =>
        rw [hr] at h
        cases h
      | ok pr =>
        obtain ⟨vps', rws'⟩ := pr
        rw [hr] at h
        dsimp only at h
        cases h
        obtain ⟨h1, h2⟩ := ih hr
        refine ⟨?_, ?_⟩
        · simp [List.filter_cons, hm, h1]
        · simp [List.filterMap_cons, hm, h2]

theorem parsePathsGo_ne_raise_ok {t : Template} {keys : List String} {opol : String}
    (hop : opol ≠ "raise") (paths : List (List Char)) :
    ∃ pr, parsePathsGo t keys opol paths = .ok pr := by
  induction paths with
  | nil => exact ⟨([], []), rfl⟩
  | cons p ps ih =>
    obtain ⟨pr, hpr⟩ := ih
    simp only [parsePathsGo]
    cases hm : pmatch t [] p with
    | none =>
      rw [if_neg hop]
      exact ⟨pr, hpr⟩
    | some env =>
      obtain ⟨vps, rws⟩ := pr
      rw [hpr]
      exact ⟨(p :: vps, (keys.map fun k => envVal env k) :: rws), rfl⟩

theorem parsePathsGo_all_ok {t : Template} {keys : List String} {opol : String} :
    ∀ {paths : List (List Char)}, (∀ p ∈ paths, (pmatch t [] p).isSome) →
      ∃ pr, parsePathsGo t keys opol paths = .ok pr := by
  intro paths
  induction paths with
  | nil => exact fun _ => ⟨([], []), rfl⟩
  | cons p ps ih =>
    intro hall
    obtain ⟨pr, hpr⟩ := ih fun q hq => hall q (by simp [hq])
    obtain ⟨env, hm⟩ := Option.isSome_iff_exists.mp (hall p (by simp))
    obtain ⟨vps, rws⟩ := pr
    simp only [parsePathsGo]
    rw [hm, hpr]
    exact ⟨(p :: vps, (keys.map fun k => envVal env k) :: rws), rfl⟩

/-- **C3**: if two distinct collected paths parse to the same row, `find`
never returns a table — and unless a different (parse) error fires first
under `on_parse_error="raise"`, the error is precisely the non-unique
metadata error; the duplicate check is not subject to any policy. -/
theorem duplicate_metadata_fatal (f : FinderB) (glob : List Char → List (List Char))
    (q : List (String × QVal)) (opol epol : String) (p₁ p₂ : List Char)
    (r : List (List Char))
    (hkeys : f.keys ≠ [])
    (hopol : opol = "raise" ∨ opol = "warn" ∨ opol = "ignore")
    (hepol : epol = "raise" ∨ epol = "warn" ∨ epol = "allow")
    (hne : p₁ ≠ p₂)
    (h₁ : p₁ ∈ collectedPaths f glob q) (h₂ : p₂ ∈ collectedPaths f glob q)
    (hr₁ : (pmatch f.template [] p₁).map (fun env => f.keys.map (envVal env)) = some r)
    (hr₂ : (pmatch f.template [] p₂).map (fun env => f.keys.map (envVal env)) = some r) :
    (∃ e, find f glob q opol epol = .error e) ∧
    ((opol ≠ "raise" ∨ ∀ p ∈ collectedPaths f glob q, (pmatch f.template [] p).isSome) →
      find f glob q opol epol = .error nonUniqueMsg) := by
  have hdup : ∀ {vps rws},
      parsePathsGo f.template f.keys opol (collectedPaths f glob q) = .ok (vps, rws) →
      hasDupB rws = true := by
    intro vps rws h
    obtain ⟨_, hrws⟩ := parsePathsGo_ok h
    rw [hasDupB_eq_true_iff]
    intro hnd
    rw [hrws] at hnd
    obtain ⟨s, u, hsu⟩ := List.append_of_mem h₁
    rw [hsu, List.filterMap_append] at hnd
    simp only [List.filterMap_cons, hr₁] at hnd
    have h₂' := h₂
    rw [hsu] at h₂'
    rcases List.mem_append.mp h₂' with h2s | h2u
    · have hrs : r ∈ s.filterMap
          (fun p => (pmatch f.template [] p).map fun env => f.keys.map (envVal env)) :=
        List.mem_filterMap.mpr ⟨p₂, h2s, hr₂⟩
      exact (List.nodup_append.mp hnd).2.2 hrs (List.mem_cons_self r _)
    · rcases List.mem_cons.mp h2u with he | h2u'
      · exact hne he.symm
      · have hru : r ∈ u.filterMap
            (fun p => (pmatch f.template [] p).map fun env => f.keys.map (envVal env)) :=
          List.mem_filterMap.mpr ⟨p₂, h2u', hr₂⟩
        exact (List.nodup_cons.mp (List.nodup_append.mp hnd).2.1).1 hru
  have hne_empty : (collectedPaths f glob q).isEmpty = false := by
    cases hc : collectedPaths f glob q with
    | nil =>
      rw [hc] at h₁
      simp at h₁
    | cons a as => rfl
  have hfind : find f glob q opol epol
      = match parsePaths f opol (collectedPaths f glob q) with
        | .error e => .error e
        | .ok df => if dupAny df then .error nonUniqueMsg else .ok df := by
    unfold find
    rw [if_neg (not_not_intro hopol), if_neg (not_not_intro hepol),
      if_neg fun hc => by rw [hne_empty] at hc; exact Bool.false_ne_true hc.1]
  cases hpp : parsePathsGo f.template f.keys opol (collectedPaths f glob q) with
  | error e =>
    have hpe : parsePaths f opol (collectedPaths f glob q) = .error e := by
      simp [parsePaths, hpp]
    have hok : ∀ pr, parsePathsGo f.template f.keys opol (collectedPaths f glob q)
        ≠ .ok pr := by
      intro pr hpr
      rw [hpp] at hpr
      cases hpr
    refine ⟨⟨e, by rw [hfind, hpe]⟩, fun hcase => ?_⟩
    exfalso
    rcases hcase with hnr | hall
    · obtain ⟨pr, hpr⟩ := parsePathsGo_ne_raise_ok hnr (collectedPaths f glob q)
      exact hok pr hpr
    · obtain ⟨pr, hpr⟩ := parsePathsGo_all_ok hall
      exact hok pr hpr
  | ok pr =>
    obtain ⟨vps, rws⟩ := pr
    have hvr := hdup hpp
    have hpp' : parsePaths f opol (collectedPaths f glob q)
        = .ok ⟨f.keys, vps.map (· ++ f.suffix), rws⟩ := by
      simp [parsePaths, hpp]
    have hres : find f glob q opol epol = .error nonUniqueMsg := by
      rw [hfind, hpp']
      have : dupAny ⟨f.keys, vps.map (· ++ f.suffix), rws⟩ = true := by
        simp only [dupAny]
        rw [if_neg (by simpa [List.isEmpty_iff] using hkeys)]
        exact hvr
      simp [this]
    exact ⟨⟨_, hres⟩, fun _ => hres⟩

/-- A finder whose row omits the `b` field, so distinct paths can parse to
identical rows.  (In the source this situation arises through format-spec
value conversion, e.g. `{n:d}` parses `"01"` and `"1"` to the same int.) -/
def f3 : FinderB := ⟨"{a}_{b}".data, [.field "a", .lit ['_'], .field "b"], ["a"], []⟩

theorem duplicate_metadata_fatal_witness :
    find f3 (fun _ => ["x_y".data, "x_z".data]) [] "ignore" "raise"
      = .error nonUniqueMsg :=
  (duplicate_metadata_fatal f3 (fun _ => ["x_y".data, "x_z".data]) [] "ignore" "raise"
      "x_y".data "x_z".data [['x']]
      (by decide) (by decide) (by decide) (by decide) (by decide)
      (by decide) (by decide) (by decide)).2
    (Or.inl (by decide))

/-! ## Path-only discovery keys (`find_paths` and the `"*"` suffix) -/

theorem getLast?_cons_ne_nil {α : Type} {a : α} {l : List α} (h : l ≠ []) :
    (a :: l).getLast? = l.getLast? := by
  cases l with
  | nil => exact absurd rfl h
  | cons b bs => exact List.getLast?_cons_cons

theorem consLit_endsLit {c : Char} {t : Template} {l : List Char}
    (h : t.getLast? = some (.lit l)) (hsl : l.getLast? = some '/') :
    ∃ la, (consLit c t).getLast? = some (.lit la) ∧ la.getLast? = some '/' := by
  match t with
  | [] => simp at h
  | .lit l₀ :: rest =>
    cases rest with
    | nil =>
      have h0 : ([Seg.lit l₀]).getLast? = some (Seg.lit l₀) := rfl
      rw [h0] at h
      have h1 : Seg.lit l₀ = Seg.lit l := Option.some.inj h
      have h2 : l₀ = l := by cases h1; rfl
      subst h2
      have hne : l₀ ≠ [] := by
        intro h3
        rw [h3] at hsl
        simp at hsl
      refine ⟨c :: l₀, rfl, ?_⟩
      rw [getLast?_cons_ne_nil hne]
      exact hsl
    | cons r rs =>
      refine ⟨l, ?_, hsl⟩
      show (Seg.lit (c :: l₀) :: r :: rs).getLast? = some (.lit l)
      rw [List.getLast?_cons_cons]
      rw [List.getLast?_cons_cons] at h
      exact h
  | .field y :: rest =>
    refine ⟨l, ?_, hsl⟩
    show (Seg.lit [c] :: Seg.field y :: rest).getLast? = some (.lit l)
    rw [List.getLast?_cons_cons]
    exact h

/-- A template compiled from a string ending in the path separator ends in a
literal segment ending in the separator. -/
theorem compileTAux_endsSlash :
    ∀ (s : List Char) (st : Option (List Char)) (t : Template),
      compileTAux st s = .ok t → s.getLast? = some '/' →
      ∃ l, t.getLast? = some (Seg.lit l) ∧ l.getLast? = some '/' := by
  intro s
  induction s with
  | nil =>
    intro st t h hl
    simp at hl
  | cons c rest ih =>
    intro st t h hl
    by_cases hre : rest = []
    · subst hre
      have hc : c = '/' := by
        have h0 : ([c]).getLast? = some c := rfl
        rw [h0] at hl
        exact Option.some.inj hl
      subst hc
      match st with
      | none =>
        simp only [compileTAux] at h
        rw [if_neg (by decide : ¬('/' : Char) = '{')] at h
        simp only [Except.map] at h
        cases h
        exact ⟨['/'], rfl, rfl⟩
      | some acc =>
        simp [compileTAux] at h
    · have hl' : rest.getLast? = some '/' := by
        obtain ⟨d, ds, hds⟩ := List.exists_cons_of_ne_nil hre
        rw [hds] at hl ⊢
        rw [List.getLast?_cons_cons] at hl
        exact hl
      match st with
      | none =>
        simp only [compileTAux] at h
        by_cases hc : c = '{'
        · rw [if_pos hc] at h
          exact ih (some []) t h hl'
        · rw [if_neg hc] at h
          cases hrec : compileTAux none rest with
          | error e =>
            rw [hrec] at h
            simp [Except.map] at h
          | ok t' =>
            rw [hrec] at h
            simp only [Except.map] at h
            cases h
            obtain ⟨l, hlast, hsl⟩ := ih none t' hrec hl'
            exact consLit_endsLit hlast hsl
      | some acc =>
        simp only [compileTAux] at h
        by_cases hc : c = '}'
        · rw [if_pos hc] at h
          cases hrec : compileTAux none rest with
          | error e =>
            rw [hrec] at h
            simp [Except.map] at h
          | ok t' =>
            rw [hrec] at h
            simp only [Except.map] at h
            cases h
            obtain ⟨l, hlast, hsl⟩ := ih none t' hrec hl'
            have hne : t' ≠ [] := by
              intro h0
              rw [h0] at hlast
              simp at hlast
            refine ⟨l, ?_, hsl⟩
            rw [getLast?_cons_ne_nil hne]
            exact hlast
        · rw [if_neg hc] at h
          exact ih (some (acc ++ [c])) t h hl'

/-- Rendering a template ending in a `/`-terminated literal yields a string
ending in `/`. -/
theorem render_endsSlash (w : String → List Char) :
    ∀ {t : Template} {l : List Char}, t.getLast? = some (.lit l) →
      l.getLast? = some '/' → (render w t).getLast? = some '/' := by
  intro t
  induction t with
  | nil =>
    intro l h _
    simp at h
  | cons seg rest ih =>
    intro l h hsl
    by_cases hre : rest = []
    · subst hre
      have h0 : ([seg]).getLast? = some seg := rfl
      rw [h0] at h
      have h1 : seg = .lit l := Option.some.inj h
      subst h1
      show (l ++ render w []).getLast? = some '/'
      rw [render_nil, List.append_nil]
      exact hsl
    · have h' : rest.getLast? = some (.lit l) := by
        obtain ⟨r, rs, hrs⟩ := List.exists_cons_of_ne_nil hre
        rw [hrs] at h ⊢
        rw [List.getLast?_cons_cons] at h
        exact h
      have hrec := ih h' hsl
      cases seg with
      | lit l₀ =>
        show (l₀ ++ render w rest).getLast? = some '/'
        rw [List.getLast?_append, hrec]
        rfl
      | field x =>
        show (w x ++ render w rest).getLast? = some '/'
        rw [List.getLast?_append, hrec]
        rfl

theorem joinPath_nil_endsSlash {a : List Char} (ha : a ≠ []) :
    (joinPath a []).getLast? = some '/' := by
  unfold joinPath
  rw [if_neg (by simp : ¬([] : List Char).head? = some '/'), if_neg ha]
  by_cases hl : a.getLast? = some '/'
  · rw [if_pos hl, List.append_nil]
    exact hl
  · rw [if_neg hl, List.getLast?_append]
    rfl

theorem mkFinderBase_ok {pattern suffix : List Char} {fb : FinderB}
    (h : mkFinderBase pattern suffix = .ok fb) :
    compileT pattern = .ok fb.template ∧ fb.suffix = suffix := by
  unfold mkFinderBase at h
  cases hc : compileT pattern with
  | error e =>
    rw [hc] at h
    cases h
  | ok t =>
    rw [hc] at h
    dsimp only at h
    cases hr : RESERVED.find?
        (fun k => (dedupFirst ((fieldsOcc t).filter validFieldName)).contains k) with
    | some k =>
      rw [hr] at h
      cases h
    | none =>
      rw [hr] at h
      dsimp only at h
      split at h
      · cases h
        exact ⟨rfl, rfl⟩
      · cases h

theorem mkFileFinder_path {pp fp : List Char} {ff : FFinder}
    (h : mkFileFinder pp fp = .ok ff) :
    mkFinderBase (joinPath pp []) ['*'] = .ok ff.path := by
  unfold mkFileFinder at h
  split at h
  · cases h
  · cases h1 : mkFinderBase fp [] with
    | error e =>
      rw [h1] at h
      cases h
    | ok file =>
      rw [h1] at h
      dsimp only at h
      cases h2 : mkFinderBase (joinPath pp []) ['*'] with
      | error e =>
        rw [h2] at h
        cases h
      | ok path =>
        rw [h2] at h
        dsimp only at h
        cases h3 : joinFiltered pp fp with
        | error e =>
          rw [h3] at h
          cases h
        | ok fullPat =>
          rw [h3] at h
          dsimp only at h
          cases h4 : mkFinderBase fullPat [] with
          | error e =>
            rw [h4] at h
            cases h
          | ok full =>
            rw [h4] at h
            dsimp only at h
            cases h
            rfl

theorem find_ok_index {f : FinderB} {glob : List Char → List (List Char)}
    {q : List (String × QVal)} {opol epol : String} {df : Df}
    (h : find f glob q opol epol = .ok df) :
    ∀ p ∈ df.index, ∃ p₀ env,
      pmatch f.template [] p₀ = some env ∧ p = p₀ ++ f.suffix := by
  unfold find at h
  split at h
  · cases h
  · split at h
    · cases h
    · split at h
      · cases h
      · cases hpp : parsePaths f opol (collectedPaths f glob q) with
        | error e =>
          rw [hpp] at h
          cases h
        | ok df' =>
          rw [hpp] at h
          dsimp only at h
          split at h
          · cases h
          · cases h
            unfold parsePaths at hpp
            cases hgo : parsePathsGo f.template f.keys opol (collectedPaths f glob q) with
            | error e =>
              rw [hgo] at hpp
              cases hpp
            | ok pr =>
              obtain ⟨vps, rws⟩ := pr
              rw [hgo] at hpp
              dsimp only at hpp
              cases hpp
              intro p hp
              simp only [List.mem_map] at hp
              obtain ⟨p₀, hp₀, hps⟩ := hp
              obtain ⟨hvps, _⟩ := parsePathsGo_ok hgo
              rw [hvps] at hp₀
              have hs := List.of_mem_filter hp₀
              obtain ⟨env, henv⟩ := Option.isSome_iff_exists.mp hs
              exact ⟨p₀, env, henv, hps.symm⟩

/-- **C10 (amended)**: for a `FileFinder` built from a *nonempty* path
pattern, every path in a table returned by the path-only discovery
(`find_paths`) ends with the path separator followed by the wildcard `"*"`:
the path finder is constructed with suffix `"*"`, its pattern ends in the
separator, and the suffix is appended to every parsed path. -/
theorem find_paths_suffix (pp fp : List Char) (ff : FFinder)
    (glob : List Char → List (List Char)) (q : List (String × QVal))
    (opol epol : String) (df : Df)
    (hpp : pp ≠ [])
    (hff : mkFileFinder pp fp = .ok ff)
    (hfind : find ff.path glob q opol epol = .ok df) :
    ∀ p ∈ df.index, ∃ p₀, p = p₀ ++ ['/', '*'] := by
  have hpath := mkFileFinder_path hff
  obtain ⟨hct, hsfx⟩ := mkFinderBase_ok hpath
  obtain ⟨l, hlast, hsl⟩ :=
    compileTAux_endsSlash (joinPath pp []) none ff.path.template hct
      (joinPath_nil_endsSlash hpp)
  intro p hp
  obtain ⟨p₀, env, hm, hps⟩ := find_ok_index hfind p hp
  obtain ⟨ext, _, _, _, hrend⟩ := pmatch_sound (by simp) hm
  have hend : p₀.getLast? = some '/' := by
    rw [hrend]
    exact render_endsSlash _ hlast hsl
  have hsplit : p₀.dropLast ++ ['/'] = p₀ :=
    List.dropLast_append_getLast? '/' (Option.mem_def.mpr hend)
  refine ⟨p₀.dropLast, ?_⟩
  rw [hps, hsfx, ← hsplit]
  simp

/-- The `FileFinder` built from `path_pattern="{d}"`, `file_pattern="{f}"`. -/
def ffW10 : FFinder :=
  ⟨⟨"{f}".data, [.field "f"], ["f"], []⟩,
    ⟨"{d}/".data, [.field "d", .lit ['/']], ["d"], ['*']⟩,
    ⟨"{d}/{f}".data, [.field "d", .lit ['/'], .field "f"], ["d", "f"], []⟩⟩

theorem find_paths_suffix_witness :
    ∃ p₀, ('a' :: '/' :: '*' :: []) = p₀ ++ ['/', '*'] :=
  find_paths_suffix "{d}".data "{f}".data ffW10 (fun _ => [['a', '/']]) []
    "raise" "raise" ⟨["d"], [['a', '/', '*']], [[['a']]]⟩
    (by decide) (by decide) (by decide)
    ['a', '/', '*'] (by decide)

/-- The `FileFinder` built from the *empty* path pattern and
`file_pattern="{f}"`: `os.path.join("", "")` is `""`, so the path finder's
pattern does not end in the separator. -/
def ffC10 : FFinder :=
  ⟨⟨"{f}".data, [.field "f"], ["f"], []⟩,
    ⟨[], [], [], ['*']⟩,
    ⟨"{f}".data, [.field "f"], ["f"], []⟩⟩

/-- **C10 counterexample**: with an empty path pattern (allowed by the
constructor — the repo's own tests build `FileFinder("", ...)`) and a path
provider returning the empty string for the empty search pattern (which the
repo's fnmatch-based test mode does for `test_paths=[""]`), `find_paths`
returns the single key `"*"`, which does not end in `"/*"`. -/
theorem find_paths_suffix_cex :
    mkFileFinder [] "{f}".data = .ok ffC10 ∧
    find ffC10.path (fun _ => [[]]) [] "raise" "raise" = .ok ⟨[], [['*']], [[]]⟩ ∧
    ¬['/', '*'] <:+ ['*'] := by
  decide

/-! ## `FileContainer.search` / `_get_subset` -/

/-- Position of a column label (first occurrence). -/
def colIdx : List String → String → Option Nat
  | [], _ => none
  | c :: cs, k => if c = k then some 0 else (colIdx cs k).map (· + 1)

/-- The value of a row at a named column. -/
def valAt (cols : List String) (row : List (List Char)) (k : String) :
    Option (List Char) :=
  match colIdx cols k with
  | none => none
  | some i => row[i]?

/-- One row satisfies the conjunction of per-key membership conditions
(`sel &= self.df[key].isin(value)`): conditions across keys are AND,
candidates within one key are OR. -/
def rowMatches (cols : List String) (query : List (String × List (List Char)))
    (row : List (List Char)) : Bool :=
  query.all fun p =>
    match valAt cols row p.1 with
    | none => false
    | some v => decide (v ∈ p.2)

/-- `FileContainer._get_subset`: an empty query returns an empty frame with
the same columns; otherwise rows are filtered by the query (a missing
column label is a `KeyError`; scalars are wrapped as single candidates). -/
def getSubset (df : Df) (query : List (String × QVal)) : Except String Df :=
  if query.isEmpty then .ok ⟨df.columns, [], []⟩
  else if query.all fun p => decide (p.1 ∈ df.columns) then
    let qw := query.map fun p => (p.1, wrapQ p.2)
    let zipped := (df.index.zip df.rows).filter fun pr => rowMatches df.columns qw pr.2
    .ok ⟨df.columns, zipped.map Prod.fst, zipped.map Prod.snd⟩
  else .error "KeyError"

/-- **C6**: `search()` with no arguments returns a zero-row table with the
original columns (not the full table), and searching a valid column for a
value absent from the table returns a zero-row table rather than an error. -/
theorem search_wildcard_asymmetry :
    (∀ df : Df, getSubset df [] = .ok ⟨df.columns, [], []⟩) ∧
    ∀ (df : Df) (k : String) (v : List Char),
      k ∈ df.columns →
      (∀ row ∈ df.rows, valAt df.columns row k ≠ some v) →
      getSubset df [(k, .scalar v)] = .ok ⟨df.columns, [], []⟩ := by
  refine ⟨fun df => rfl, fun df k v hk habs => ?_⟩
  unfold getSubset
  rw [if_neg (by simp), if_pos (by simp [hk])]
  have hfilt : (df.index.zip df.rows).filter
      (fun pr => rowMatches df.columns [(k, wrapQ (.scalar v))] pr.2) = [] := by
    rw [List.filter_eq_nil_iff]
    intro pr hpr
    have hrow : pr.2 ∈ df.rows := (List.of_mem_zip hpr).2
    simp only [rowMatches, wrapQ, List.all_cons, List.all_nil, Bool.and_true]
    cases hva : valAt df.columns pr.2 k with
    | none => simp
    | some v' =>
      simp only [List.mem_singleton, decide_eq_true_eq]
      intro hv
      exact habs pr.2 hrow (by rw [hva, hv])
  simp only [List.map_cons, List.map_nil, hfilt]

/-- A one-row table with column `m`. -/
def df6 : Df := ⟨["m"], ["p1".data], [[['a']]]⟩

theorem search_wildcard_asymmetry_witness :
    getSubset df6 [] = .ok ⟨["m"], [], []⟩ ∧
    getSubset df6 [("m", .scalar ['z'])] = .ok ⟨["m"], [], []⟩ :=
  ⟨search_wildcard_asymmetry.1 df6,
    search_wildcard_asymmetry.2 df6 "m" ['z'] (by decide) (by decide)⟩

/-! ## Priority filter (`filters.priority_filter`) -/

/-- A table as seen by the priority filter: columns and value rows.  (The
path index plays no part in grouping; `_prioritize` drops it via
`reset_index`.) -/
structure PTable where
  columns : List String
  rows : List (List (List Char))
  deriving Repr, DecidableEq

/-- The group key of a row over the `groupby` columns
(`pd.MultiIndex.from_frame(obj[groupby])`). -/
def groupKey (cols groupby : List String) (row : List (List Char)) :
    List (Option (List Char)) :=
  groupby.map fun c => valAt cols row c

/-- The default `groupby`: all columns except the priority column and
`"filename"` (`set(obj.columns) - {column, "filename"}`; the set's
iteration order does not affect the partition). -/
def defaultGroupby (cols : List String) (column : String) : List String :=
  cols.filter fun c => ¬(c = column ∨ c = "filename")

/-- The `on_missing="error"` → `"raise"` rename (with a `FutureWarning`). -/
def normMissing (onMissing : String) : String :=
  if onMissing = "error" then "raise" else onMissing

/-- Resolve one partition (`_prioritize` loop body): the first priority
value present in the partition's priority-column values selects the kept
row; exactly one row may carry it; if no value is present, `on_missing`
decides between failing and dropping the partition. -/
def processGroup (cols : List String) (column : String) (order : List (List Char))
    (onMissing : String) (one : List (List (List Char))) :
    Except String (List (List (List Char))) :=
  match order.find? (fun e => one.any fun r => decide (valAt cols r column = some e)) with
  | some e =>
    if (one.filter fun r => decide (valAt cols r column = some e)).length = 1 then
      .ok (one.filter fun r => decide (valAt cols r column = some e))
    else .error "Found more than one row for the selected priority value"
  | none =>
    if onMissing = "raise" then
      .error "Did not find any element from the priority list"
    else .ok []

/-- Concatenate the kept rows of all partitions, failing on the first
partition error. -/
def prioritizeGroups (cols : List String) (column : String) (order : List (List Char))
    (onMissing : String) :
    List (List (List (List Char))) → Except String (List (List (List Char)))
  | [] => .ok []
  | g :: gs =>
    match processGroup cols column order onMissing g with
    | .error e => .error e
    | .ok s =>
      match prioritizeGroups cols column order onMissing gs with
      | .error e => .error e
      | .ok rest => .ok (s ++ rest)

/-- `_prioritize`: partition the rows by their group key (in first-occurrence
order, as `multiindex.unique()`), resolve every partition, and concatenate;
`pd.concat` of an empty list raises. -/
def prioritize (cols : List String) (rows : List (List (List Char)))
    (column : String) (order : List (List Char)) (onMissing : String)
    (groupby : List String) : Except String (List (List (List Char))) :=
  match prioritizeGroups cols column order onMissing
      ((dedupFirst (rows.map (groupKey cols groupby))).map
        fun k => rows.filter fun r => decide (groupKey cols groupby r = k)) with
  | .error e => .error e
  | .ok out => if out.isEmpty then .error "No objects to concatenate" else .ok out

/-- The branchy core of `priority_filter` after validation: rows are only
touched when the group keys have duplicates; afterwards the absence of
duplicate groups is re-checked. -/
def priorityCore (df : PTable) (column : String) (order : List (List Char))
    (onM : String) (groupby : List String) : Except String PTable :=
  if hasDupB (df.rows.map (groupKey df.columns groupby)) then
    match prioritize df.columns df.rows column order onM groupby with
    | .error e => .error e
    | .ok rows' =>
      if hasDupB (rows'.map (groupKey df.columns groupby)) then
        .error "Something went wrong"
      else .ok ⟨df.columns, rows'⟩
  else .ok df

/-- `filters.priority_filter`: validate `on_missing` (after the `"error"`
rename), the priority column, and `groupby`, then run the core. -/
def priorityFilter (df : PTable) (column : String) (order : List (List Char))
    (onMissing : String) (groupby? : Option (List String)) : Except String PTable :=
  if ¬(normMissing onMissing = "raise" ∨ normMissing onMissing = "warn" ∨
      normMissing onMissing = "ignore") then
    .error "Unknown value for 'on_missing'. Must be one of 'raise', 'warn' or 'ignore'."
  else if column ∉ df.columns then
    .error "column must be available in df"
  else if column ∈ groupby?.getD (defaultGroupby df.columns column) then
    .error "`groupby` may not contain column"
  else
    priorityCore df column order (normMissing onMissing)
      (groupby?.getD (defaultGroupby df.columns column))

example : priorityFilter
    ⟨["model", "res"],
      [[['a'], ['d']], [['a'], ['h']], [['b'], ['h']], [['b'], ['d']], [['c'], ['d']]]⟩
    "res" [['h'], ['d']] "raise" none
    = .ok ⟨["model", "res"], [[['a'], ['h']], [['b'], ['h']], [['c'], ['d']]]⟩ := by
  decide

example : priorityFilter
    ⟨["model", "res"], [[['a'], ['d']], [['a'], ['h']], [['b'], ['d']], [['c'], ['z']]]⟩
    "res" [['h'], ['d']] "ignore" none
    = .ok ⟨["model", "res"], [[['a'], ['h']], [['b'], ['d']]]⟩ := by
  decide

example : priorityFilter
    ⟨["model", "res"], [[['a'], ['d']], [['a'], ['h']], [['b'], ['d']], [['c'], ['z']]]⟩
    "res" [['h'], ['d']] "raise" none
    = .error "Did not find any element from the priority list" := by
  decide

example : priorityFilter ⟨["model", "res"], [[['a'], ['d']], [['a'], ['d']]]⟩
    "res" [['h'], ['d']] "raise" none
    = .error "Found more than one row for the selected priority value" := by
  decide

theorem mem_dedupFirstAux {α : Type} [DecidableEq α] :
    ∀ (l : List α) (seen : List α) (a : α),
      a ∈ dedupFirstAux seen l ↔ a ∈ l ∧ a ∉ seen := by
  intro l
  induction l with
  | nil =>
    intro seen a
    simp [dedupFirstAux]
  | cons x xs ih =>
    intro seen a
    simp only [dedupFirstAux]
    by_cases hx : x ∈ seen
    · rw [if_pos hx, ih]
      constructor
      · exact fun ⟨h1, h2⟩ => ⟨by simp [h1], h2⟩
      · rintro ⟨h1, h2⟩
        rcases List.mem_cons.mp h1 with h1 | h1
        · exact absurd (h1 ▸ hx) h2
        · exact ⟨h1, h2⟩
    · rw [if_neg hx]
      simp only [List.mem_cons, ih]
      constructor
      · rintro (h | ⟨h1, h2⟩)
        · exact ⟨Or.inl h, h ▸ hx⟩
        · exact ⟨Or.inr h1, fun hs => h2 (by simp [hs])⟩
      · rintro ⟨h1 | h1, h2⟩
        · exact Or.inl h1
        · by_cases hax : a = x
          · exact Or.inl hax
          · exact Or.inr ⟨h1, by simp [hax, h2]⟩

theorem mem_dedupFirst {α : Type} [DecidableEq α] {l : List α} {a : α} (h : a ∈ l) :
    a ∈ dedupFirst l := by
  rw [dedupFirst, mem_dedupFirstAux]
  exact ⟨h, by simp⟩

theorem find?_eq_of_pred_iff {α : Type} {p : α → Bool} {v : α}
    (hp : ∀ e, p e = true ↔ e = v) :
    ∀ {l : List α}, v ∈ l → l.find? p = some v := by
  intro l
  induction l with
  | nil => simp
  | cons x xs ih =>
    intro hv
    by_cases hx : p x = true
    · rw [List.find?_cons_of_pos _ hx, (hp x).mp hx]
    · rw [List.find?_cons_of_neg _ hx]
      rcases List.mem_cons.mp hv with hvx | hvx
      · exact absurd ((hp x).mpr hvx.symm) hx
      · exact ih hvx

theorem prioritizeGroups_subset {cols : List String} {column : String}
    {order : List (List Char)} {onM : String} :
    ∀ {groups out}, prioritizeGroups cols column order onM groups = .ok out →
      ∀ g ∈ groups, ∀ {s}, processGroup cols column order onM g = .ok s →
      ∀ x ∈ s, x ∈ out := by
  intro groups
  induction groups with
  | nil =>
    intro out _ g hg
    simp at hg
  | cons g' gs ih =>
    intro out h g hg s hs x hx
    simp only [prioritizeGroups] at h
    cases hpg : processGroup cols column order onM g' with
    | error e =>
      rw [hpg] at h
      cases h
    | ok s' =>
      rw [hpg] at h
      dsimp only at h
      cases hrec : prioritizeGroups cols column order onM gs with
      | error e =>
        rw [hrec] at h
        cases h
      | ok rest =>
        rw [hrec] at h
        dsimp only at h
        cases h
        rcases List.mem_cons.mp hg with hgg | hgg
        · subst hgg
          rw [hs] at hpg
          cases hpg
          exact List.mem_append_left _ hx
        · exact List.mem_append_right _ (ih hrec g hgg hs x hx)

theorem priorityCore_ok {df df' : PTable} {column : String} {order : List (List Char)}
    {onM : String} {groupby : List String}
    (h : priorityCore df column order onM groupby = .ok df') :
    df'.columns = df.columns ∧
    hasDupB (df'.rows.map (groupKey df.columns groupby)) = false := by
  unfold priorityCore at h
  split at h
  · cases hpri : prioritize df.columns df.rows column order onM groupby with
    | error e =>
      rw [hpri] at h
      cases h
    | ok rows' =>
      rw [hpri] at h
      dsimp only at h
      split at h
      · cases h
      · next hdup2 =>
        cases h
        exact ⟨rfl, by simpa using hdup2⟩
  · next hdup =>
    cases h
    exact ⟨rfl, by simpa using hdup⟩

/-- **C7**: the priority filter is idempotent: a successful application
leaves no duplicate groups, so a second application with the same arguments
returns its input unchanged. -/
theorem priority_filter_idempotent (df df' : PTable) (column : String)
    (order : List (List Char)) (onMissing : String) (groupby? : Option (List String))
    (h : priorityFilter df column order onMissing groupby? = .ok df') :
    priorityFilter df' column order onMissing groupby? = .ok df' := by
  unfold priorityFilter at h ⊢
  split at h
  · cases h
  · split at h
    · cases h
    · split at h
      · cases h
      · next hv1 hv2 hv3 =>
        obtain ⟨hcols, hnodup⟩ := priorityCore_ok h
        rw [if_neg hv1, hcols, if_neg hv2, if_neg hv3]
        unfold priorityCore
        rw [hcols, if_neg (by simp [hnodup])]

/-- The filtered table kept by a successful run on `dfW7C`. -/
def dfW7 : PTable := ⟨["model", "res"], [[['a'], ['h']], [['c'], ['d']]]⟩

/-- A table with one duplicated group (`model = a`). -/
def dfW7C : PTable :=
  ⟨["model", "res"], [[['a'], ['d']], [['a'], ['h']], [['c'], ['d']]]⟩

theorem priority_filter_idempotent_witness :
    priorityFilter dfW7 "res" [['h'], ['d']] "raise" none = .ok dfW7 :=
  priority_filter_idempotent dfW7C dfW7 "res" [['h'], ['d']] "raise" none (by decide)

/-- The table of the C1 counterexample: group `m = a` is duplicated, group
`m = b` has exactly one row whose priority value `x` is not in the order. -/
def dfC1 : PTable := ⟨["m", "r"], [[['a'], ['n']], [['a'], ['q']], [['b'], ['x']]]⟩

/-- **C1 counterexample**: the single-row partition `(b, x)` (its priority
value `x` absent from the order `[n]`) is *dropped* under
`on_missing="ignore"` and makes the whole operation fail under the default
`on_missing="raise"` — it is not kept unchanged, because `_prioritize`
subjects every partition (also singletons) to the priority scan whenever
the table has any duplicated group. -/
theorem priority_filter_single_row_cex :
    (dfC1.rows.filter fun r2 =>
        decide (groupKey dfC1.columns ["m"] r2
          = groupKey dfC1.columns ["m"] [['b'], ['x']])) = [[['b'], ['x']]] ∧
    defaultGroupby dfC1.columns "r" = ["m"] ∧
    priorityFilter dfC1 "r" [['n']] "ignore" none
      = .ok ⟨["m", "r"], [[['a'], ['n']]]⟩ ∧
    [['b'], ['x']] ∉ (⟨["m", "r"], [[['a'], ['n']]]⟩ : PTable).rows ∧
    priorityFilter dfC1 "r" [['n']] "raise" none
      = .error "Did not find any element from the priority list" := by
  decide

/-- **C1 (amended)**: a partition with exactly one row is kept unchanged by
a successful priority filter *provided its priority-column value occurs in
the priority order* (when the value is absent and another group is
duplicated, the row instead triggers the `on_missing` policy). -/
theorem priority_filter_single_row (df : PTable) (column : String)
    (order : List (List Char)) (onMissing : String) (groupby? : Option (List String))
    (df' : PTable) (r : List (List Char)) (v : List Char) (gb : List String)
    (hgb : gb = groupby?.getD (defaultGroupby df.columns column))
    (hgrp : df.rows.filter
      (fun r2 => decide (groupKey df.columns gb r2 = groupKey df.columns gb r)) = [r])
    (hval : valAt df.columns r column = some v)
    (hvord : v ∈ order)
    (hok : priorityFilter df column order onMissing groupby? = .ok df') :
    r ∈ df'.rows := by
  have hrmem : r ∈ df.rows := by
    have hr : r ∈ df.rows.filter
        (fun r2 => decide (groupKey df.columns gb r2 = groupKey df.columns gb r)) := by
      rw [hgrp]
      simp
    exact List.mem_of_mem_filter hr
  unfold priorityFilter at hok
  split at hok
  · cases hok
  · split at hok
    · cases hok
    · split at hok
      · cases hok
      · rw [← hgb] at hok
        unfold priorityCore at hok
        split at hok
        · cases hpri : prioritize df.columns df.rows column order
              (normMissing onMissing) gb with
          | error e =>
            rw [hpri] at hok
            cases hok
          | ok rows' =>
            rw [hpri] at hok
            dsimp only at hok
            split at hok
            · cases hok
            · cases hok
              show r ∈ rows'
              unfold prioritize at hpri
              cases hpgs : prioritizeGroups df.columns column order
                  (normMissing onMissing)
                  ((dedupFirst (df.rows.map (groupKey df.columns gb))).map
                    fun k => df.rows.filter
                      fun r2 => decide (groupKey df.columns gb r2 = k)) with
              | error e =>
                rw [hpgs] at hpri
                cases hpri
              | ok out =>
                rw [hpgs] at hpri
                dsimp only at hpri
                split at hpri
                · cases hpri
                · cases hpri
                  have hkmem : groupKey df.columns gb r
                      ∈ dedupFirst (df.rows.map (groupKey df.columns gb)) :=
                    mem_dedupFirst (List.mem_map_of_mem _ hrmem)
                  have hgmem : (df.rows.filter fun r2 =>
                        decide (groupKey df.columns gb r2 = groupKey df.columns gb r))
                      ∈ (dedupFirst (df.rows.map (groupKey df.columns gb))).map
                        (fun k => df.rows.filter
                          fun r2 => decide (groupKey df.columns gb r2 = k)) :=
                    List.mem_map_of_mem _ hkmem
                  have hfind : order.find?
                      (fun e => [r].any fun r2 =>
                        decide (valAt df.columns r2 column = some e)) = some v := by
                    refine find?_eq_of_pred_iff (fun e => ?_) hvord
                    simp only [List.any_cons, List.any_nil, Bool.or_false, hval,
                      decide_eq_true_eq, Option.some.injEq]
                    exact ⟨fun h => h.symm, fun h => h.symm⟩
                  have hproc : processGroup df.columns column order
                      (normMissing onMissing) [r] = .ok [r] := by
                    simp only [processGroup, hfind]
                    rw [show ([r].filter fun r2 =>
                        decide (valAt df.columns r2 column = some v)) = [r] from by
                      simp [hval]]
                    rfl
                  have hproc' : processGroup df.columns column order
                      (normMissing onMissing)
                      (df.rows.filter fun r2 =>
                        decide (groupKey df.columns gb r2 = groupKey df.columns gb r))
                      = .ok [r] := by
                    rw [hgrp]
                    exact hproc
                  exact prioritizeGroups_subset hpgs _ hgmem hproc' r (by simp)
        · cases hok
          exact hrmem

/-- A table whose group `m = b` is a singleton with priority value in the
order. -/
def dfW1 : PTable := ⟨["m", "r"], [[['a'], ['n']], [['a'], ['q']], [['b'], ['n']]]⟩

theorem priority_filter_single_row_witness :
    [['b'], ['n']] ∈ (⟨["m", "r"], [[['a'], ['n']], [['b'], ['n']]]⟩ : PTable).rows :=
  priority_filter_single_row dfW1 "r" [['n']] "raise" none
    ⟨["m", "r"], [[['a'], ['n']], [['b'], ['n']]]⟩ [['b'], ['n']] ['n'] ["m"]
    (by decide) (by decide) (by decide) (by decide) (by decide)

end Filefinder
